import Mathlib

/-!
Verification of the terrain-generation code in `src/gen.js` (lunar-lander
terrain generation) against its natural-language specification.

Modelling conventions for the shallow embedding:

* JS numbers that feed control flow (the angle cursor, scales, random draws)
  are embedded as rationals `ℚ`, keeping the sampling loop executable; the
  wavefunction value `wave(a)` is a sum of sines and cosines and lives in `ℝ`.
  An output coordinate is an element of `ℝ × ℝ`.
* `Math.random()` is modelled as an explicit stream `rand : ℕ → ℚ` of draws in
  `[0, 1)`, consumed left to right in the source's evaluation order.
* The `for` loop over the rational cursor `a` has no syntactic bound, so it is
  embedded with an explicit fuel parameter; exhausted fuel yields `none`.
  Termination for sufficient fuel is proved below (claim C6).
* Division by zero: Lean's convention `q / 0 = 0` is used where the source can
  divide by zero, namely `zoneSpacing = maxPhase / numZones` with
  `numZones = 0`.  In JS that division yields `Infinity` (for `maxPhase > 0`)
  and then `a / Infinity = 0`, so the zone condition
  `a / zoneSpacing - zonesPlaced > 0` computes to `0 - zonesPlaced > 0` in
  both semantics; the two models take the same branch.  (For `maxPhase < 0`
  JS yields `-Infinity` and `a / -Infinity = -0`, and for `maxPhase = 0` it
  yields `NaN`, whose comparisons are false: in every case the condition is
  false exactly as with the `q / 0 = 0` convention.)
-/

namespace LunarTerrain

/-- Term-selector flags of the wavefunction: `t.s i` embeds `t['s' + i]` and
`t.c i` embeds `t['c' + i]` from `makeWaveFunction` in `src/gen.js`.  The JS
object stores numbers, so flags are embedded as real numbers. -/
structure TermSet where
  s : ℕ → ℝ
  c : ℕ → ℝ

/-- One iteration of the accumulation loop in `makeWaveFunction`
(`src/gen.js` line 39): the quantity `t['s'+i]*sin(i*x) + t['c'+i]*cos(i*x)`
added to `y` for index `i`. -/
noncomputable def waveTerm (t : TermSet) (x : ℝ) (i : ℕ) : ℝ :=
  t.s i * Real.sin (i * x) + t.c i * Real.cos (i * x)

/-- Shallow embedding of `makeWaveFunction` from `src/gen.js` (lines 31-45).
The returned closure starts from `y = 0` and adds `waveTerm` for `i` running
from `n` down to `1`; the descending loop is rendered as a left fold over the
reversed index list `[n, ..., 1]`, so the accumulation order matches the
source. -/
noncomputable def makeWaveFunction (t : TermSet) (n : ℕ) : ℝ → ℝ :=
  fun x => (((List.range n).reverse.map fun j => waveTerm t x (j + 1)).foldl (· + ·) 0)

/-- A JS number as seen by the wavefunction evaluation: either an actual
(real) number or the IEEE-754 `NaN` value.  `undefined` operands coerce to
`NaN` in JS arithmetic, so a missing term-set flag also evaluates to `nan`
here. -/
inductive JSNum where
  | nan : JSNum
  | num : ℝ → JSNum

/-- JS strict equality `===` restricted to numbers: any comparison involving
`NaN` is false (IEEE-754), otherwise it is numeric equality. -/
def jsStrictEq : JSNum → JSNum → Prop
  | .nan, _ => False
  | .num _, .nan => False
  | .num a, .num b => a = b

/-- The guard of the warning branch in `makeWaveFunction` (`src/gen.js`
line 41): the source tests `y === NaN`. -/
def nanWarnTriggered (y : JSNum) : Prop :=
  jsStrictEq y JSNum.nan

/-- JS addition on numbers: `NaN` is absorbing. -/
def jsAdd : JSNum → JSNum → JSNum
  | .nan, _ => .nan
  | .num _, .nan => .nan
  | .num a, .num b => .num (a + b)

/-- JS multiplication on numbers: `NaN` is absorbing. -/
def jsMul : JSNum → JSNum → JSNum
  | .nan, _ => .nan
  | .num _, .nan => .nan
  | .num a, .num b => .num (a * b)

/-- A term set as the JS object actually stores it: a lookup that may come
back `undefined` (modelled as `JSNum.nan`, its value in arithmetic). -/
structure JSTermSet where
  s : ℕ → JSNum
  c : ℕ → JSNum

/-- The empty JS object `{}` used as a term set: every flag lookup yields
`undefined`, which behaves as `NaN` in the arithmetic of the loop body. -/
def jsEmptyTerms : JSTermSet :=
  ⟨fun _ => .nan, fun _ => .nan⟩

/-- `makeWaveFunction` evaluated with JS number semantics (`NaN`-aware), for
the error-handling analysis: same descending accumulation as
`makeWaveFunction`, but additions and multiplications propagate `NaN`. -/
noncomputable def makeWaveFunctionJS (t : JSTermSet) (n : ℕ) : ℝ → JSNum :=
  fun x =>
    (((List.range n).reverse.map fun j =>
      jsAdd (jsMul (t.s (j + 1)) (.num (Real.sin ((j + 1 : ℕ) * x))))
        (jsMul (t.c (j + 1)) (.num (Real.cos ((j + 1 : ℕ) * x))))).foldl jsAdd (.num 0))

/-- Resolved configuration of one `generateTerrain` call, after the source's
falsy-default resolution (`src/gen.js` lines 149-158).  Counts are naturals,
all other numeric options are rationals (see the modelling conventions).
`zoneWidths` is the 3-entry array `[x5ZoneWidth, x3ZoneWidth, x2ZoneWidth]`. -/
structure Config where
  numTerms : ℕ
  maxPhase : ℚ
  numSamples : ℕ
  scaleX : ℚ
  scaleY : ℚ
  offsetY : ℚ
  maxDeviationX : ℚ
  maxDeviationY : ℚ
  numZones : ℕ
  zoneWidths : ℚ × ℚ × ℚ
  deriving DecidableEq

/-- The rational data of one coordinate pushed by the sampling loop: its
final `x` value, the angle `ang` whose wave value enters `y`, the additive
y-jitter `dy`, and whether the coordinate is the second push of the zone
branch (`zoneEnd`).  The real-valued coordinate is `realize` of this data;
splitting it off keeps the loop itself executable over `ℚ` while `y` needs
the transcendental wave value. -/
structure Samp where
  x : ℚ
  ang : ℚ
  dy : ℚ
  zoneEnd : Bool
  deriving DecidableEq

/-- The term set drawn at the top of `generateTerrain` (`src/gen.js` lines
160-164): `terms['s'+i] = floor(random()*100) % 2` consuming the stream in
the order `s1, c1, s2, c2, ...`, so `s i` uses draw `2*i - 2` and `c i` uses
draw `2*i - 1`. -/
def termsOf (rand : ℕ → ℚ) : TermSet :=
  ⟨fun i => ((⌊rand (2 * i - 2) * 100⌋ % 2 : ℤ) : ℝ),
   fun i => ((⌊rand (2 * i - 1) * 100⌋ % 2 : ℤ) : ℝ)⟩

/-- The wavefunction instance a `generateTerrain` call builds
(`src/gen.js` line 165), as a function of the rational angle cursor. -/
noncomputable def waveOf (cfg : Config) (rand : ℕ → ℚ) (a : ℚ) : ℝ :=
  makeWaveFunction (termsOf rand) cfg.numTerms (a : ℝ)

/-- `da`, the nominal radian distance between samples (`src/gen.js` line 169:
`da = maxPhase / numSamples`). -/
def da (cfg : Config) : ℚ :=
  cfg.maxPhase / (cfg.numSamples : ℚ)

/-- `dda`, the maximal deviation of the per-step angle increment
(`src/gen.js` line 170: `dda = da * 0.4`). -/
def dda (cfg : Config) : ℚ :=
  da cfg * (0.4 : ℚ)

/-- `zoneSpacing = maxPhase / numZones` (`src/gen.js` line 167).  With
`numZones = 0` this is `0` by the Lean division convention; see the module
comment for why this matches the JS `Infinity` behaviour branch-wise. -/
def zoneSpacing (cfg : Config) : ℚ :=
  cfg.maxPhase / (cfg.numZones : ℚ)

/-- The update expression of the sampling `for` loop (`src/gen.js` line 172:
`a += da + ((random()*2 - 1) * dda)`), with `k` the index of the draw it
consumes. -/
def stepInc (cfg : Config) (rand : ℕ → ℚ) (k : ℕ) : ℚ :=
  da cfg + (rand k * 2 - 1) * dda cfg

/-- The rational data of one ordinary sample pushed by the loop body
(`src/gen.js` lines 173-177) for cursor value `a`, where draw `k` jitters `y`
and draw `k+1` jitters `x` (the source computes `y` first):
`x = a*scaleX + (random()*2 - 1)*maxDeviationX`, angle `a`, and y-jitter
`dy = (random()*2 - 1)*maxDeviationY`.  The real-valued `y` coordinate is
recovered later by `realize`; `zoneEnd` marks coordinates appended by the
zone branch. -/
def baseSamp (cfg : Config) (rand : ℕ → ℚ) (a : ℚ) (k : ℕ) : Samp :=
  ⟨a * cfg.scaleX + (rand (k + 1) * 2 - 1) * cfg.maxDeviationX, a,
    (rand k * 2 - 1) * cfg.maxDeviationY, false⟩

/-- The `switch (zone)` of `src/gen.js` lines 192-202: the width added to `x`
for the drawn zone variant.  The switch has no default, so a value outside
`{0, 1, 2}` (impossible for a draw in `[0,1)`) adds nothing. -/
def zoneWidth (cfg : Config) (z : ℤ) : ℚ :=
  if z = 0 then cfg.zoneWidths.1
  else if z = 1 then cfg.zoneWidths.2.1
  else if z = 2 then cfg.zoneWidths.2.2
  else 0

/-- The sampling loop of `generateTerrain` (`src/gen.js` lines 172-207),
with an explicit fuel bound.  State: cursor `a`, `zonesPlaced` counter `zp`,
next random-draw index `k`, accumulated output `acc`.  Each iteration:

* guard `a < maxPhase`; on exit return the accumulated list;
* push the jittered sample (draws `k`, `k+1`);
* if `zonesPlaced > numZones`, skip the zone logic (`continue`);
* else if `a / zoneSpacing - zonesPlaced > 0`: draw `k+2` and test
  `floor(draw*100) % 8 === 1` (the source skips when the test fails);
  on success draw `k+3` for the variant, push a second coordinate at
  `x + zoneWidth` with the same `y`, reset `a = x / scaleX`, and increment
  `zonesPlaced`;
* finally the `for` update adds `da + (random()*2 - 1)*dda` to `a`. -/
def sampleLoop (cfg : Config) (rand : ℕ → ℚ) : ℕ → ℚ → ℕ → ℕ → List Samp → Option (List Samp)
  | 0, a, _, _, acc => if a < cfg.maxPhase then none else some acc
  | fuel + 1, a, zp, k, acc =>
    if a < cfg.maxPhase then
      if zp > cfg.numZones then
        sampleLoop cfg rand fuel (a + stepInc cfg rand (k + 2)) zp (k + 3)
          (acc ++ [baseSamp cfg rand a k])
      else if a / zoneSpacing cfg - (zp : ℚ) > 0 then
        if ⌊rand (k + 2) * 100⌋ % 8 = 1 then
          sampleLoop cfg rand fuel
            (((baseSamp cfg rand a k).x + zoneWidth cfg (⌊rand (k + 3) * 100⌋ % 3)) / cfg.scaleX
              + stepInc cfg rand (k + 4))
            (zp + 1) (k + 5)
            (acc ++ [baseSamp cfg rand a k,
              ⟨(baseSamp cfg rand a k).x + zoneWidth cfg (⌊rand (k + 3) * 100⌋ % 3), a,
                (baseSamp cfg rand a k).dy, true⟩])
        else
          sampleLoop cfg rand fuel (a + stepInc cfg rand (k + 3)) zp (k + 4)
            (acc ++ [baseSamp cfg rand a k])
      else
        sampleLoop cfg rand fuel (a + stepInc cfg rand (k + 2)) zp (k + 3)
          (acc ++ [baseSamp cfg rand a k])
    else some acc

/-- One full run of the sampling stage of `generateTerrain`: the cursor
starts at `0`, no zones are placed, and draws `0 .. 2*numTerms - 1` were
already consumed by the term-set construction. -/
def sampleRun (cfg : Config) (rand : ℕ → ℚ) (fuel : ℕ) : Option (List Samp) :=
  sampleLoop cfg rand fuel 0 0 (2 * cfg.numTerms) []

/-- Converts the rational data of a sample into the output coordinate of
`src/gen.js` lines 173-176: `x` as recorded, and
`y = (offsetY - wave(a)*scaleY) + dy` with the transcendental wave value
taken in `ℝ`. -/
noncomputable def realize (cfg : Config) (rand : ℕ → ℚ) (s : Samp) : ℝ × ℝ :=
  ((s.x : ℝ), ((cfg.offsetY : ℝ) - waveOf cfg rand s.ang * (cfg.scaleY : ℝ)) + (s.dy : ℝ))

/-- Shallow embedding of `generateTerrain` (`src/gen.js` lines 146-208):
draw the term set, run the sampling loop, and realize every sample as a
coordinate pair. -/
noncomputable def generateTerrain (cfg : Config) (rand : ℕ → ℚ) (fuel : ℕ) :
    Option (List (ℝ × ℝ)) :=
  (sampleRun cfg rand fuel).map (fun l => l.map (realize cfg rand))

/-- Modelled from the spec (§4.2 steps 2-4 and §8): the "plain sampled
sequence" — the sampling loop with the zone-placement logic absent, pushing
one jittered sample per iteration and consuming three draws per iteration
exactly like `sampleLoop` does on its zone-free path. -/
def plainLoop (cfg : Config) (rand : ℕ → ℚ) : ℕ → ℚ → ℕ → List Samp → Option (List Samp)
  | 0, a, _, acc => if a < cfg.maxPhase then none else some acc
  | fuel + 1, a, k, acc =>
    if a < cfg.maxPhase then
      plainLoop cfg rand fuel (a + stepInc cfg rand (k + 2)) (k + 3)
        (acc ++ [baseSamp cfg rand a k])
    else some acc

/-- Modelled from the spec: the plain sampled terrain (no zone placement),
used as the reference for claim C7. -/
noncomputable def plainTerrain (cfg : Config) (rand : ℕ → ℚ) (fuel : ℕ) :
    Option (List (ℝ × ℝ)) :=
  (plainLoop cfg rand fuel 0 (2 * cfg.numTerms) []).map (fun l => l.map (realize cfg rand))

/-- The number of zone-end coordinates (second pushes of the zone branch) in
a sample list. -/
def zoneEndCount (l : List Samp) : ℕ :=
  (l.filter fun s => s.zoneEnd).length

/-- The zone-placement test of `src/gen.js` line 188 as a predicate on one
uniform draw `r`: `floor(r * 100) % 8 === 1` (a zone is placed only when it
holds; the opportunity is skipped otherwise). -/
def zonePlaceDraw (r : ℝ) : Prop :=
  ⌊r * 100⌋ % 8 = 1

/-- The zone-variant selector of `src/gen.js` line 191 as a function of one
uniform draw `r`: `zone = floor(r * 100) % 3`. -/
noncomputable def zoneVariantDraw (r : ℝ) : ℤ :=
  ⌊r * 100⌋ % 3

/-- A sample whose coordinate lies on the (scaled, offset) base curve:
no y-jitter was recorded, and `x` is the scaled sample angle, possibly
shifted by one of the three configured zone widths (for zone-end
coordinates, whose cursor the source resets to `x / scaleX`). -/
def SampOnCurve (cfg : Config) (s : Samp) : Prop :=
  s.dy = 0
    ∧ (s.x = s.ang * cfg.scaleX
      ∨ s.x = s.ang * cfg.scaleX + cfg.zoneWidths.1
      ∨ s.x = s.ang * cfg.scaleX + cfg.zoneWidths.2.1
      ∨ s.x = s.ang * cfg.scaleX + cfg.zoneWidths.2.2)

/-- The measure of remaining loop iterations once no further zone can be
placed: how many minimal steps of size `0.6 * da` still fit below
`maxPhase`.  Used for the termination proof (claim C6). -/
def measN (cfg : Config) (a : ℚ) : ℕ :=
  (⌈(cfg.maxPhase - a) / (da cfg * (3 / 5))⌉).toNat

/-- The constant central random stream: every draw is `1/2`, so every jitter
term `(random()*2 - 1) * bound` is `0` and every loop step is exactly `da`. -/
def randHalf : ℕ → ℚ :=
  fun _ => 1 / 2

/-- The constant bottom random stream: every draw is `0` (a legal value of
`Math.random()`), so every loop step is the minimal `da - 0.4*da`. -/
def randZero : ℕ → ℚ :=
  fun _ => 0

/-- A small zone-free configuration: one harmonic, domain `[0, 1)`, one
nominal sample, unit scales, no jitter, no zones. -/
def cfgW : Config :=
  ⟨1, 1, 1, 1, 1, 0, 0, 0, 0, (0, 0, 0)⟩

/-- Configuration for the C3 counterexample: `numSamples = 2` over domain
`[0, 2)` (so `da = 1`), no zones, no jitter bounds. -/
def cfg3 : Config :=
  ⟨1, 2, 2, 1, 1, 0, 0, 0, 0, (0, 0, 0)⟩

/-- Configuration with two landing zones over domain `[0, 4)` with
`numSamples = 4` (so `da = 1`, `zoneSpacing = 2`) and zone widths
`(1/4, 1/3, 1/2)`. -/
def cfg8 : Config :=
  ⟨1, 4, 4, 1, 1, 0, 0, 0, 2, (1 / 4, 1 / 3, 1 / 2)⟩

/-- Random stream driving `cfg8` to place both zones: draws 7 and 12 pass
the `% 8 === 1` placement test (`floor(0.01*100) = 1`), draws 8 and 13 pick
zone variant 0, and all other draws are the central `1/2`. -/
def rand8 : ℕ → ℚ :=
  fun k =>
    if k = 7 then 1 / 100
    else if k = 8 then 0
    else if k = 12 then 1 / 100
    else if k = 13 then 0
    else 1 / 2

/-- The sample list produced by `sampleRun cfg8 rand8`: ordinary samples at
angles `0, 1, 9/4, 7/2` and zone-end coordinates after the samples at `1`
and `9/4`, each shifted by zone width `1/4`. -/
def sampList8 : List Samp :=
  [⟨0, 0, 0, false⟩, ⟨1, 1, 0, false⟩, ⟨5 / 4, 1, 0, true⟩,
    ⟨9 / 4, 9 / 4, 0, false⟩, ⟨5 / 2, 9 / 4, 0, true⟩, ⟨7 / 2, 7 / 2, 0, false⟩]

end LunarTerrain

namespace LunarTerrain

lemma sampleLoop_exit (cfg : Config) (rand : ℕ → ℚ) (fuel : ℕ) (a : ℚ) (zp k : ℕ)
    (acc : List Samp) (ha : ¬ a < cfg.maxPhase) :
    sampleLoop cfg rand fuel a zp k acc = some acc := by
  cases fuel <;> simp [sampleLoop, ha]

lemma sampleLoop_step_zpdone (cfg : Config) (rand : ℕ → ℚ) (fuel : ℕ) (a : ℚ) (zp k : ℕ)
    (acc : List Samp) (ha : a < cfg.maxPhase) (hzp : zp > cfg.numZones) :
    sampleLoop cfg rand (fuel + 1) a zp k acc
      = sampleLoop cfg rand fuel (a + stepInc cfg rand (k + 2)) zp (k + 3)
          (acc ++ [baseSamp cfg rand a k]) := by
  simp [sampleLoop, ha, hzp]

lemma sampleLoop_step_notReady (cfg : Config) (rand : ℕ → ℚ) (fuel : ℕ) (a : ℚ) (zp k : ℕ)
    (acc : List Samp) (ha : a < cfg.maxPhase) (hzp : ¬ zp > cfg.numZones)
    (hc : ¬ a / zoneSpacing cfg - (zp : ℚ) > 0) :
    sampleLoop cfg rand (fuel + 1) a zp k acc
      = sampleLoop cfg rand fuel (a + stepInc cfg rand (k + 2)) zp (k + 3)
          (acc ++ [baseSamp cfg rand a k]) := by
  simp [sampleLoop, ha, hzp, hc]

lemma sampleLoop_step_deferred (cfg : Config) (rand : ℕ → ℚ) (fuel : ℕ) (a : ℚ) (zp k : ℕ)
    (acc : List Samp) (ha : a < cfg.maxPhase) (hzp : ¬ zp > cfg.numZones)
    (hc : a / zoneSpacing cfg - (zp : ℚ) > 0) (hd : ¬ ⌊rand (k + 2) * 100⌋ % 8 = 1) :
    sampleLoop cfg rand (fuel + 1) a zp k acc
      = sampleLoop cfg rand fuel (a + stepInc cfg rand (k + 3)) zp (k + 4)
          (acc ++ [baseSamp cfg rand a k]) := by
  simp [sampleLoop, ha, hzp, hc, hd]

lemma sampleLoop_step_zone (cfg : Config) (rand : ℕ → ℚ) (fuel : ℕ) (a : ℚ) (zp k : ℕ)
    (acc : List Samp) (ha : a < cfg.maxPhase) (hzp : ¬ zp > cfg.numZones)
    (hc : a / zoneSpacing cfg - (zp : ℚ) > 0) (hd : ⌊rand (k + 2) * 100⌋ % 8 = 1) :
    sampleLoop cfg rand (fuel + 1) a zp k acc
      = sampleLoop cfg rand fuel
          (((baseSamp cfg rand a k).x + zoneWidth cfg (⌊rand (k + 3) * 100⌋ % 3)) / cfg.scaleX
            + stepInc cfg rand (k + 4))
          (zp + 1) (k + 5)
          (acc ++ [baseSamp cfg rand a k,
            ⟨(baseSamp cfg rand a k).x + zoneWidth cfg (⌊rand (k + 3) * 100⌋ % 3), a,
              (baseSamp cfg rand a k).dy, true⟩]) := by
  simp [sampleLoop, ha, hzp, hc, hd]

lemma run8_eq : sampleRun cfg8 rand8 20 = some sampList8 := by
  rw [sampleRun]
  rw [sampleLoop_step_notReady _ _ _ _ _ _ _ (by norm_num [cfg8]) (by norm_num [cfg8])
    (by norm_num [cfg8, zoneSpacing])]
  norm_num [cfg8, rand8, stepInc, da, dda, baseSamp]
  rw [sampleLoop_step_zone _ _ _ _ _ _ _ (by norm_num [cfg8]) (by norm_num [cfg8])
    (by norm_num [cfg8, zoneSpacing]) (by norm_num [cfg8, rand8])]
  norm_num [cfg8, rand8, stepInc, da, dda, baseSamp, zoneWidth]
  rw [sampleLoop_step_zone _ _ _ _ _ _ _ (by norm_num [cfg8]) (by norm_num [cfg8])
    (by norm_num [cfg8, zoneSpacing]) (by norm_num [cfg8, rand8])]
  norm_num [cfg8, rand8, stepInc, da, dda, baseSamp, zoneWidth]
  rw [sampleLoop_step_notReady _ _ _ _ _ _ _ (by norm_num [cfg8]) (by norm_num [cfg8])
    (by norm_num [cfg8, zoneSpacing])]
  norm_num [cfg8, rand8, stepInc, da, dda, baseSamp]
  rw [sampleLoop_exit _ _ _ _ _ _ _ (by norm_num [cfg8])]
  norm_num [sampList8]

lemma plainLoop_eq (cfg : Config) (rand : ℕ → ℚ) (hz : cfg.numZones = 0) :
    ∀ fuel a k acc, sampleLoop cfg rand fuel a 0 k acc = plainLoop cfg rand fuel a k acc := by
  intro fuel
  induction fuel with
  | zero => intro a k acc; rfl
  | succ fuel ih =>
    intro a k acc
    by_cases ha : a < cfg.maxPhase
    · rw [sampleLoop_step_notReady cfg rand fuel a 0 k acc ha (by omega)
        (by simp [zoneSpacing, hz])]
      rw [show plainLoop cfg rand (fuel + 1) a k acc
          = plainLoop cfg rand fuel (a + stepInc cfg rand (k + 2)) (k + 3)
              (acc ++ [baseSamp cfg rand a k]) by simp [plainLoop, ha]]
      exact ih _ _ _
    · rw [sampleLoop_exit _ _ _ _ _ _ _ ha]
      simp [plainLoop, ha]

lemma sampleLoop_extends (cfg : Config) (rand : ℕ → ℚ) :
    ∀ fuel a zp k acc l, sampleLoop cfg rand fuel a zp k acc = some l →
      ∃ rest, l = acc ++ rest := by
  intro fuel
  induction fuel with
  | zero =>
    intro a zp k acc l h
    by_cases ha : a < cfg.maxPhase
    · simp [sampleLoop, ha] at h
    · rw [sampleLoop_exit _ _ _ _ _ _ _ ha] at h
      exact ⟨[], by simp [← Option.some_inj.mp h]⟩
  | succ fuel ih =>
    intro a zp k acc l h
    by_cases ha : a < cfg.maxPhase
    · by_cases hzp : zp > cfg.numZones
      · rw [sampleLoop_step_zpdone _ _ _ _ _ _ _ ha hzp] at h
        obtain ⟨rest, hr⟩ := ih _ _ _ _ _ h
        exact ⟨_, by rw [hr, List.append_assoc]⟩
      · by_cases hc : a / zoneSpacing cfg - (zp : ℚ) > 0
        · by_cases hd : ⌊rand (k + 2) * 100⌋ % 8 = 1
          · rw [sampleLoop_step_zone _ _ _ _ _ _ _ ha hzp hc hd] at h
            obtain ⟨rest, hr⟩ := ih _ _ _ _ _ h
            exact ⟨_, by rw [hr, List.append_assoc]⟩
          · rw [sampleLoop_step_deferred _ _ _ _ _ _ _ ha hzp hc hd] at h
            obtain ⟨rest, hr⟩ := ih _ _ _ _ _ h
            exact ⟨_, by rw [hr, List.append_assoc]⟩
        · rw [sampleLoop_step_notReady _ _ _ _ _ _ _ ha hzp hc] at h
          obtain ⟨rest, hr⟩ := ih _ _ _ _ _ h
          exact ⟨_, by rw [hr, List.append_assoc]⟩
    · rw [sampleLoop_exit _ _ _ _ _ _ _ ha] at h
      exact ⟨[], by simp [← Option.some_inj.mp h]⟩

lemma runW_eq : sampleRun cfgW randHalf 2 = some [baseSamp cfgW randHalf 0 2] := by
  rw [sampleRun]
  rw [sampleLoop_step_notReady _ _ _ _ _ _ _ (by norm_num [cfgW]) (by norm_num [cfgW])
    (by norm_num [cfgW, zoneSpacing])]
  rw [sampleLoop_exit _ _ _ _ _ _ _ (by norm_num [cfgW, stepInc, da, dda, randHalf])]
  norm_num [cfgW]

lemma genW_eq :
    generateTerrain cfgW randHalf 2
      = some [realize cfgW randHalf (baseSamp cfgW randHalf 0 2)] := by
  rw [generateTerrain, runW_eq]
  rfl

lemma generateTerrain_eq_some (cfg : Config) (rand : ℕ → ℚ) (fuel : ℕ) (ter : List (ℝ × ℝ))
    (h : generateTerrain cfg rand fuel = some ter) :
    ∃ l, sampleRun cfg rand fuel = some l ∧ ter = l.map (realize cfg rand) := by
  rw [generateTerrain] at h
  cases hsr : sampleRun cfg rand fuel with
  | none => rw [hsr] at h; cases h
  | some l => rw [hsr] at h; exact ⟨l, rfl, (Option.some_inj.mp h).symm⟩

lemma baseSamp_onCurve (cfg : Config) (rand : ℕ → ℚ) (a : ℚ) (k : ℕ)
    (hx : cfg.maxDeviationX = 0) (hy : cfg.maxDeviationY = 0) :
    SampOnCurve cfg (baseSamp cfg rand a k) :=
  ⟨by simp [baseSamp, hy], Or.inl (by simp [baseSamp, hx])⟩

lemma zoneSamp_onCurve (cfg : Config) (rand : ℕ → ℚ) (a : ℚ) (k : ℕ) (z : ℤ)
    (hx : cfg.maxDeviationX = 0) (hy : cfg.maxDeviationY = 0) :
    SampOnCurve cfg ⟨(baseSamp cfg rand a k).x + zoneWidth cfg z, a,
      (baseSamp cfg rand a k).dy, true⟩ := by
  have hbx : (baseSamp cfg rand a k).x = a * cfg.scaleX := by simp [baseSamp, hx]
  refine ⟨by simp [baseSamp, hy], ?_⟩
  show (baseSamp cfg rand a k).x + zoneWidth cfg z = a * cfg.scaleX
    ∨ (baseSamp cfg rand a k).x + zoneWidth cfg z = a * cfg.scaleX + cfg.zoneWidths.1
    ∨ (baseSamp cfg rand a k).x + zoneWidth cfg z = a * cfg.scaleX + cfg.zoneWidths.2.1
    ∨ (baseSamp cfg rand a k).x + zoneWidth cfg z = a * cfg.scaleX + cfg.zoneWidths.2.2
  rw [hbx, zoneWidth]
  split_ifs
  · exact Or.inr (Or.inl rfl)
  · exact Or.inr (Or.inr (Or.inl rfl))
  · exact Or.inr (Or.inr (Or.inr rfl))
  · exact Or.inl (by ring)

lemma sampleLoop_onCurve (cfg : Config) (rand : ℕ → ℚ)
    (hx : cfg.maxDeviationX = 0) (hy : cfg.maxDeviationY = 0) :
    ∀ fuel a zp k acc l, (∀ s ∈ acc, SampOnCurve cfg s) →
      sampleLoop cfg rand fuel a zp k acc = some l → ∀ s ∈ l, SampOnCurve cfg s := by
  intro fuel
  induction fuel with
  | zero =>
    intro a zp k acc l hacc h
    by_cases ha : a < cfg.maxPhase
    · simp [sampleLoop, ha] at h
    · rw [sampleLoop_exit _ _ _ _ _ _ _ ha] at h
      exact (Option.some_inj.mp h) ▸ hacc
  | succ fuel ih =>
    intro a zp k acc l hacc h
    by_cases ha : a < cfg.maxPhase
    · have hbase := baseSamp_onCurve cfg rand a k hx hy
      by_cases hzp : zp > cfg.numZones
      · rw [sampleLoop_step_zpdone _ _ _ _ _ _ _ ha hzp] at h
        refine ih _ _ _ _ _ ?_ h
        intro s hs
        rcases List.mem_append.mp hs with h1 | h2
        · exact hacc s h1
        · exact (List.mem_singleton.mp h2) ▸ hbase
      · by_cases hc : a / zoneSpacing cfg - (zp : ℚ) > 0
        · by_cases hd : ⌊rand (k + 2) * 100⌋ % 8 = 1
          · rw [sampleLoop_step_zone _ _ _ _ _ _ _ ha hzp hc hd] at h
            refine ih _ _ _ _ _ ?_ h
            intro s hs
            rcases List.mem_append.mp hs with h1 | h2
            · exact hacc s h1
            · rcases List.mem_cons.mp h2 with rfl | h3
              · exact hbase
              · exact (List.mem_singleton.mp h3) ▸
                  zoneSamp_onCurve cfg rand a k (⌊rand (k + 3) * 100⌋ % 3) hx hy
          · rw [sampleLoop_step_deferred _ _ _ _ _ _ _ ha hzp hc hd] at h
            refine ih _ _ _ _ _ ?_ h
            intro s hs
            rcases List.mem_append.mp hs with h1 | h2
            · exact hacc s h1
            · exact (List.mem_singleton.mp h2) ▸ hbase
        · rw [sampleLoop_step_notReady _ _ _ _ _ _ _ ha hzp hc] at h
          refine ih _ _ _ _ _ ?_ h
          intro s hs
          rcases List.mem_append.mp hs with h1 | h2
          · exact hacc s h1
          · exact (List.mem_singleton.mp h2) ▸ hbase
    · rw [sampleLoop_exit _ _ _ _ _ _ _ ha] at h
      exact (Option.some_inj.mp h) ▸ hacc

lemma foldl_add_eq (l : List ℝ) : ∀ a : ℝ, l.foldl (· + ·) a = a + l.sum := by
  induction l with
  | nil => intro a; simp
  | cons h t ih => intro a; rw [List.foldl_cons, ih, List.sum_cons]; ring

lemma range_map_sum (f : ℕ → ℝ) : ∀ n : ℕ, ((List.range n).map f).sum = ∑ i ∈ Finset.range n, f i := by
  intro n
  induction n with
  | zero => simp
  | succ n ih =>
    rw [List.range_succ, List.map_append, List.sum_append, Finset.sum_range_succ, ih]
    simp

lemma wave_eq_range (t : TermSet) (n : ℕ) (x : ℝ) :
    makeWaveFunction t n x = ∑ i ∈ Finset.range n, waveTerm t x (i + 1) := by
  unfold makeWaveFunction
  rw [foldl_add_eq, zero_add, List.map_reverse, List.sum_reverse]
  exact range_map_sum _ n

lemma sum_shift_Icc (f : ℕ → ℝ) : ∀ n : ℕ, (∑ i ∈ Finset.range n, f (i + 1)) = ∑ i ∈ Finset.Icc 1 n, f i := by
  intro n
  induction n with
  | zero => simp
  | succ n ih =>
    rw [Finset.sum_range_succ, ih, Finset.sum_Icc_succ_top (by omega : 1 ≤ n + 1)]

/-- C1: for every term set whose flags are all 0 or 1 and every `n ≥ 1`, the
closure returned by `makeWaveFunction` — which accumulates its terms from
`i = n` down to `i = 1` — computes the mathematical sum
`Σ_{i=1}^{n} s_i·sin(i·a) + c_i·cos(i·a)` at every angle `a`. -/
theorem C1_wave_descending_sum_eq (t : TermSet) (n : ℕ) (x : ℝ) (hn : 1 ≤ n)
    (hflags : ∀ i ∈ Finset.Icc 1 n, (t.s i = 0 ∨ t.s i = 1) ∧ (t.c i = 0 ∨ t.c i = 1)) :
    makeWaveFunction t n x
      = ∑ i ∈ Finset.Icc 1 n, (t.s i * Real.sin (i * x) + t.c i * Real.cos (i * x)) := by
  rw [wave_eq_range, sum_shift_Icc (waveTerm t x) n]
  simp only [waveTerm]

/-- C1 witness: the theorem instantiated at the all-sines term set with
`n = 1` and angle `0`. -/
theorem C1_wave_descending_sum_eq_witness :
    makeWaveFunction ⟨fun _ => 1, fun _ => 0⟩ 1 0
      = ∑ i ∈ Finset.Icc 1 1,
          ((⟨fun _ => 1, fun _ => 0⟩ : TermSet).s i * Real.sin (i * 0)
            + (⟨fun _ => 1, fun _ => 0⟩ : TermSet).c i * Real.cos (i * 0)) :=
  C1_wave_descending_sum_eq ⟨fun _ => 1, fun _ => 0⟩ 1 0 (by norm_num)
    (fun i _ => ⟨Or.inr rfl, Or.inl rfl⟩)

/-- C5: the warning branch of `makeWaveFunction` is dead code.  Evaluating
the wavefunction on the empty term set (all flags `undefined`) produces
`NaN`, yet the source's guard `y === NaN` still evaluates to false — IEEE-754
strict equality with `NaN` never holds — so the `NaN` is returned silently
and no warning is ever surfaced. -/
theorem C5_nan_guard_never_fires :
    makeWaveFunctionJS jsEmptyTerms 1 0 = JSNum.nan
      ∧ (nanWarnTriggered (makeWaveFunctionJS jsEmptyTerms 1 0) ↔ False) :=
  ⟨rfl, Iff.rfl⟩

/-- C2: with both deviation bounds zero, every coordinate produced by
`generateTerrain` lies exactly on the scaled/offset base curve: there is an
angle `aq` with `y = offsetY - wave(aq)·scaleY` and `x = aq·scaleX`, except
that a zone-end coordinate keeps the `y` of the sample it extends while its
`x` is that sample's `x` shifted by one of the configured zone widths (the
cursor is then reset to `x / scaleX`, making the pair consistent again). -/
theorem C2_zero_deviation_on_curve (cfg : Config) (rand : ℕ → ℚ) (fuel : ℕ)
    (ter : List (ℝ × ℝ)) (hx : cfg.maxDeviationX = 0) (hy : cfg.maxDeviationY = 0)
    (h : generateTerrain cfg rand fuel = some ter) :
    ∀ c ∈ ter, ∃ aq : ℚ,
      c.2 = (cfg.offsetY : ℝ) - waveOf cfg rand aq * (cfg.scaleY : ℝ)
        ∧ (c.1 = (aq : ℝ) * (cfg.scaleX : ℝ)
          ∨ c.1 = (aq : ℝ) * (cfg.scaleX : ℝ) + (cfg.zoneWidths.1 : ℝ)
          ∨ c.1 = (aq : ℝ) * (cfg.scaleX : ℝ) + (cfg.zoneWidths.2.1 : ℝ)
          ∨ c.1 = (aq : ℝ) * (cfg.scaleX : ℝ) + (cfg.zoneWidths.2.2 : ℝ)) := by
  obtain ⟨l, hl, rfl⟩ := generateTerrain_eq_some cfg rand fuel ter h
  intro c hc
  obtain ⟨s, hs, rfl⟩ := List.mem_map.mp hc
  obtain ⟨hdy, hsx⟩ :=
    sampleLoop_onCurve cfg rand hx hy fuel 0 0 (2 * cfg.numTerms) [] l (by simp) hl s hs
  refine ⟨s.ang, ?_, ?_⟩
  · show ((cfg.offsetY : ℝ) - waveOf cfg rand s.ang * (cfg.scaleY : ℝ)) + (s.dy : ℝ) = _
    rw [hdy]
    push_cast
    ring
  · rcases hsx with h1 | h1 | h1 | h1
    · exact Or.inl (by show (s.x : ℝ) = _; rw [h1]; push_cast; ring)
    · exact Or.inr (Or.inl (by show (s.x : ℝ) = _; rw [h1]; push_cast; ring))
    · exact Or.inr (Or.inr (Or.inl (by show (s.x : ℝ) = _; rw [h1]; push_cast; ring)))
    · exact Or.inr (Or.inr (Or.inr (by show (s.x : ℝ) = _; rw [h1]; push_cast; ring)))

/-- C2 witness: the theorem applied to the one-sample run of the zone-free
jitter-free configuration `cfgW` with the central stream. -/
theorem C2_zero_deviation_on_curve_witness :
    ∃ aq : ℚ,
      (realize cfgW randHalf (baseSamp cfgW randHalf 0 2)).2
          = (cfgW.offsetY : ℝ) - waveOf cfgW randHalf aq * (cfgW.scaleY : ℝ)
        ∧ ((realize cfgW randHalf (baseSamp cfgW randHalf 0 2)).1
              = (aq : ℝ) * (cfgW.scaleX : ℝ)
          ∨ (realize cfgW randHalf (baseSamp cfgW randHalf 0 2)).1
              = (aq : ℝ) * (cfgW.scaleX : ℝ) + (cfgW.zoneWidths.1 : ℝ)
          ∨ (realize cfgW randHalf (baseSamp cfgW randHalf 0 2)).1
              = (aq : ℝ) * (cfgW.scaleX : ℝ) + (cfgW.zoneWidths.2.1 : ℝ)
          ∨ (realize cfgW randHalf (baseSamp cfgW randHalf 0 2)).1
              = (aq : ℝ) * (cfgW.scaleX : ℝ) + (cfgW.zoneWidths.2.2 : ℝ)) :=
  C2_zero_deviation_on_curve cfgW randHalf 2 _ rfl rfl genW_eq _
    (List.mem_singleton.mpr rfl)

/-- C7: with `numZones = 0` the zone branch never executes and the division
`maxPhase / numZones` does not corrupt the sampling loop: `generateTerrain`
returns exactly the plain sampled sequence (the zone-free sampler modelled
from the spec), for every random stream and every fuel bound. -/
theorem C7_no_zones_yields_plain_sequence (cfg : Config) (rand : ℕ → ℚ) (fuel : ℕ)
    (hz : cfg.numZones = 0) :
    generateTerrain cfg rand fuel = plainTerrain cfg rand fuel := by
  rw [generateTerrain, plainTerrain, sampleRun, plainLoop_eq cfg rand hz]

/-- C7 witness: the theorem applied to the zone-free configuration `cfgW`. -/
theorem C7_no_zones_yields_plain_sequence_witness :
    generateTerrain cfgW randHalf 2 = plainTerrain cfgW randHalf 2 :=
  C7_no_zones_yields_plain_sequence cfgW randHalf 2 rfl

/-- C10: whenever `maxPhase > 0` and `generateTerrain` returns, the output is
non-empty and its first coordinate is the sample taken at angle `a = 0`:
`x = 0·scaleX + jitterX = jitterX` (draw `2·numTerms + 1`) and
`y = offsetY - wave(0)·scaleY + jitterY` (draw `2·numTerms`); in particular
with both deviation bounds zero the first vertex is exactly
`(0, offsetY - wave(0)·scaleY)`. -/
theorem C10_first_sample_at_zero (cfg : Config) (rand : ℕ → ℚ) (fuel : ℕ)
    (ter : List (ℝ × ℝ)) (hp : 0 < cfg.maxPhase)
    (h : generateTerrain cfg rand fuel = some ter) :
    ter ≠ [] ∧ ter.head? = some
      ((((rand (2 * cfg.numTerms + 1) * 2 - 1) * cfg.maxDeviationX : ℚ) : ℝ),
        ((cfg.offsetY : ℝ) - waveOf cfg rand 0 * (cfg.scaleY : ℝ))
          + (((rand (2 * cfg.numTerms) * 2 - 1) * cfg.maxDeviationY : ℚ) : ℝ)) := by
  obtain ⟨l, hl, rfl⟩ := generateTerrain_eq_some cfg rand fuel ter h
  rw [sampleRun] at hl
  cases fuel with
  | zero => simp [sampleLoop, hp] at hl
  | succ fuel =>
    rw [sampleLoop_step_notReady cfg rand fuel 0 0 (2 * cfg.numTerms) [] hp (by omega)
      (by simp)] at hl
    obtain ⟨rest, hr⟩ := sampleLoop_extends cfg rand fuel _ _ _ _ _ hl
    rw [List.nil_append] at hr
    subst hr
    rw [List.singleton_append]
    refine ⟨by simp, ?_⟩
    show some (realize cfg rand (baseSamp cfg rand 0 (2 * cfg.numTerms))) = _
    rw [realize, baseSamp]
    show some ((((0 : ℚ) * cfg.scaleX + (rand (2 * cfg.numTerms + 1) * 2 - 1)
        * cfg.maxDeviationX : ℚ) : ℝ), _) = _
    norm_num

lemma zoneEndCount_append (l l' : List Samp) :
    zoneEndCount (l ++ l') = zoneEndCount l + zoneEndCount l' := by
  simp [zoneEndCount, List.filter_append]

lemma zoneEndCount_base (cfg : Config) (rand : ℕ → ℚ) (a : ℚ) (k : ℕ) :
    zoneEndCount [baseSamp cfg rand a k] = 0 := by
  simp [zoneEndCount, baseSamp]

lemma zp_lt_of_ready (cfg : Config) (a : ℚ) (zp : ℕ) (hp : 0 < cfg.maxPhase)
    (ha : a < cfg.maxPhase) (hc : a / zoneSpacing cfg - (zp : ℚ) > 0) :
    zp < cfg.numZones := by
  rcases Nat.eq_zero_or_pos cfg.numZones with h0 | hpos
  · exfalso
    rw [zoneSpacing, h0] at hc
    norm_num at hc
    have : (0 : ℚ) ≤ (zp : ℚ) := by positivity
    linarith
  · have hnz : (0 : ℚ) < (cfg.numZones : ℚ) := by exact_mod_cast hpos
    have hzs : 0 < zoneSpacing cfg := div_pos hp hnz
    have h2 : a / zoneSpacing cfg < cfg.maxPhase / zoneSpacing cfg :=
      (div_lt_div_iff_of_pos_right hzs).mpr ha
    have h3 : cfg.maxPhase / zoneSpacing cfg = (cfg.numZones : ℚ) := by
      rw [zoneSpacing]
      field_simp
    have h4 : (zp : ℚ) < (cfg.numZones : ℚ) := by
      have := sub_pos.mp hc
      calc (zp : ℚ) < a / zoneSpacing cfg := this
        _ < (cfg.numZones : ℚ) := h3 ▸ h2
    exact_mod_cast h4

lemma sampleLoop_zoneCount (cfg : Config) (rand : ℕ → ℚ) (hp : 0 < cfg.maxPhase) :
    ∀ fuel a zp k acc l, zp ≤ cfg.numZones →
      sampleLoop cfg rand fuel a zp k acc = some l →
      zoneEndCount l ≤ zoneEndCount acc + (cfg.numZones - zp) := by
  intro fuel
  induction fuel with
  | zero =>
    intro a zp k acc l hle h
    by_cases ha : a < cfg.maxPhase
    · simp [sampleLoop, ha] at h
    · rw [sampleLoop_exit _ _ _ _ _ _ _ ha] at h
      rw [← Option.some_inj.mp h]
      omega
  | succ fuel ih =>
    intro a zp k acc l hle h
    by_cases ha : a < cfg.maxPhase
    · by_cases hzp : zp > cfg.numZones
      · exact absurd hzp (by omega)
      · by_cases hc : a / zoneSpacing cfg - (zp : ℚ) > 0
        · by_cases hd : ⌊rand (k + 2) * 100⌋ % 8 = 1
          · rw [sampleLoop_step_zone _ _ _ _ _ _ _ ha hzp hc hd] at h
            have hlt := zp_lt_of_ready cfg a zp hp ha hc
            have key := ih _ _ _ _ _ (by omega) h
            rw [zoneEndCount_append] at key
            have h2 : zoneEndCount [baseSamp cfg rand a k,
                ⟨(baseSamp cfg rand a k).x + zoneWidth cfg (⌊rand (k + 3) * 100⌋ % 3), a,
                  (baseSamp cfg rand a k).dy, true⟩] = 1 := by
              simp [zoneEndCount, baseSamp]
            rw [h2] at key
            omega
          · rw [sampleLoop_step_deferred _ _ _ _ _ _ _ ha hzp hc hd] at h
            have key := ih _ _ _ _ _ hle h
            rw [zoneEndCount_append, zoneEndCount_base] at key
            omega
        · rw [sampleLoop_step_notReady _ _ _ _ _ _ _ ha hzp hc] at h
          have key := ih _ _ _ _ _ hle h
          rw [zoneEndCount_append, zoneEndCount_base] at key
          omega
    · rw [sampleLoop_exit _ _ _ _ _ _ _ ha] at h
      rw [← Option.some_inj.mp h]
      omega

lemma zoneCount_le (cfg : Config) (rand : ℕ → ℚ) (fuel : ℕ) (l : List Samp)
    (h : sampleRun cfg rand fuel = some l) : zoneEndCount l ≤ cfg.numZones := by
  rw [sampleRun] at h
  rcases le_or_lt cfg.maxPhase 0 with hp | hp
  · rw [sampleLoop_exit _ _ _ _ _ _ _ (not_lt.mpr hp)] at h
    rw [← Option.some_inj.mp h]
    simp [zoneEndCount]
  · have key := sampleLoop_zoneCount cfg rand hp fuel 0 0 (2 * cfg.numTerms) [] l
      (Nat.zero_le _) h
    simpa [zoneEndCount] using key

/-- C9 counterexample: no run of the sampler ever appends `numZones + 1`
zone-end coordinates, so the claimed runs attaining the slack of the guard
`zonesPlaced > numZones` do not exist: the spacing condition
`a / zoneSpacing - zonesPlaced > 0` together with the loop guard
`a < maxPhase` already caps placements at `numZones`. -/
theorem C9_extra_zone_counterexample :
    (∃ (cfg : Config) (rand : ℕ → ℚ) (fuel : ℕ) (l : List Samp),
      sampleRun cfg rand fuel = some l ∧ zoneEndCount l = cfg.numZones + 1) ↔ False := by
  constructor
  · rintro ⟨cfg, rand, fuel, l, h, hcount⟩
    have := zoneCount_le cfg rand fuel l h
    omega
  · exact False.elim

/-- C9 amended: in every run the number of zone-end coordinates appended is
at most `numZones` (not merely `numZones + 1`), and runs attaining exactly
`numZones` exist (`cfg8` places both of its configured zones).  The guard
`zonesPlaced > numZones` does permit one extra placement, but the spacing
condition makes that slack unreachable in exact arithmetic. -/
theorem C9_zone_count_bound :
    (∀ (cfg : Config) (rand : ℕ → ℚ) (fuel : ℕ) (l : List Samp),
      sampleRun cfg rand fuel = some l → zoneEndCount l ≤ cfg.numZones)
      ∧ (∃ l, sampleRun cfg8 rand8 20 = some l ∧ zoneEndCount l = cfg8.numZones) :=
  ⟨fun cfg rand fuel l h => zoneCount_le cfg rand fuel l h,
    ⟨sampList8, run8_eq, rfl⟩⟩

/-- C9 witness: the bound applied to the concrete `cfg8` run. -/
theorem C9_zone_count_bound_witness : zoneEndCount sampList8 ≤ cfg8.numZones :=
  C9_zone_count_bound.1 cfg8 rand8 20 sampList8 run8_eq

/-- C8: with `numZones = 2` and domain `[0, 4)` there is a random stream
(`rand8`) whose output contains an adjacent coordinate pair with equal `y`
whose `x` values differ by exactly one of the configured zone widths. -/
theorem C8_zone_pair_exists :
    ∃ ter, generateTerrain cfg8 rand8 20 = some ter
      ∧ ∃ i c c', ter[i]? = some c ∧ ter[i + 1]? = some c'
        ∧ c.2 = c'.2
        ∧ (c'.1 - c.1 = (cfg8.zoneWidths.1 : ℝ)
          ∨ c'.1 - c.1 = (cfg8.zoneWidths.2.1 : ℝ)
          ∨ c'.1 - c.1 = (cfg8.zoneWidths.2.2 : ℝ)) := by
  refine ⟨sampList8.map (realize cfg8 rand8), by rw [generateTerrain, run8_eq]; rfl,
    1, realize cfg8 rand8 ⟨1, 1, 0, false⟩, realize cfg8 rand8 ⟨5 / 4, 1, 0, true⟩,
    by simp [sampList8], by simp [sampList8], rfl, Or.inl ?_⟩
  show ((5 / 4 : ℚ) : ℝ) - ((1 : ℚ) : ℝ) = _
  norm_num [cfg8]

lemma run3_eq :
    sampleRun cfg3 randZero 10
      = some [⟨0, 0, 0, false⟩, ⟨3 / 5, 3 / 5, 0, false⟩, ⟨6 / 5, 6 / 5, 0, false⟩,
          ⟨9 / 5, 9 / 5, 0, false⟩] := by
  rw [sampleRun]
  rw [sampleLoop_step_notReady _ _ _ _ _ _ _ (by norm_num [cfg3]) (by norm_num [cfg3])
    (by norm_num [cfg3, zoneSpacing])]
  norm_num [cfg3, randZero, stepInc, da, dda, baseSamp]
  rw [sampleLoop_step_notReady _ _ _ _ _ _ _ (by norm_num [cfg3]) (by norm_num [cfg3])
    (by norm_num [cfg3, zoneSpacing])]
  norm_num [cfg3, randZero, stepInc, da, dda, baseSamp]
  rw [sampleLoop_step_notReady _ _ _ _ _ _ _ (by norm_num [cfg3]) (by norm_num [cfg3])
    (by norm_num [cfg3, zoneSpacing])]
  norm_num [cfg3, randZero, stepInc, da, dda, baseSamp]
  rw [sampleLoop_step_notReady _ _ _ _ _ _ _ (by norm_num [cfg3]) (by norm_num [cfg3])
    (by norm_num [cfg3, zoneSpacing])]
  norm_num [cfg3, randZero, stepInc, da, dda, baseSamp]
  rw [sampleLoop_exit _ _ _ _ _ _ _ (by norm_num [cfg3])]

/-- C3 counterexample: with `numSamples = 2`, `numZones = 0`, `maxPhase = 2`
(so `da = 1`) and the legal random stream that always draws `0` — every step
is `da - 0.4·da`, within the claimed jitter bound — `generateTerrain`
returns 4 coordinates, not `numSamples = 2`: the per-step jitter does change
the output length. -/
theorem C3_length_counterexample :
    (generateTerrain cfg3 randZero 10).map List.length = some 4
      ∧ cfg3.numSamples = 2 := by
  constructor
  · rw [generateTerrain, run3_eq]
    rfl
  · rfl

lemma central_len (cfg : Config) (rand : ℕ → ℚ) (hz : cfg.numZones = 0)
    (hr : ∀ m, rand m = 1 / 2) (hp : 0 < cfg.maxPhase) (hN : 1 ≤ cfg.numSamples) :
    ∀ fuel (j k : ℕ) acc l,
      sampleLoop cfg rand fuel ((j : ℚ) * da cfg) 0 k acc = some l →
      l.length = acc.length + (cfg.numSamples - j) := by
  have hNq : (0 : ℚ) < (cfg.numSamples : ℚ) := by exact_mod_cast hN
  have hda : 0 < da cfg := div_pos hp hNq
  have hmp : cfg.maxPhase = (cfg.numSamples : ℚ) * da cfg := by
    rw [da]
    field_simp
  have hstep : ∀ m, stepInc cfg rand m = da cfg := by
    intro m
    rw [stepInc, hr m]
    ring
  intro fuel
  induction fuel with
  | zero =>
    intro j k acc l h
    by_cases ha : (j : ℚ) * da cfg < cfg.maxPhase
    · simp [sampleLoop, ha] at h
    · rw [sampleLoop_exit _ _ _ _ _ _ _ ha] at h
      have hj : cfg.numSamples ≤ j := by
        by_contra hj
        apply ha
        rw [hmp]
        have hlt : (j : ℚ) < (cfg.numSamples : ℚ) := by exact_mod_cast Nat.lt_of_not_le hj
        exact mul_lt_mul_of_pos_right hlt hda
      rw [← Option.some_inj.mp h]
      omega
  | succ fuel ih =>
    intro j k acc l h
    by_cases ha : (j : ℚ) * da cfg < cfg.maxPhase
    · have hj : j < cfg.numSamples := by
        by_contra hj
        refine absurd ha (not_lt.mpr ?_)
        rw [hmp]
        have hle : (cfg.numSamples : ℚ) ≤ (j : ℚ) := by exact_mod_cast Nat.le_of_not_lt hj
        exact mul_le_mul_of_nonneg_right hle hda.le
      rw [sampleLoop_step_notReady _ _ _ _ _ _ _ ha (by omega)
        (by simp [zoneSpacing, hz])] at h
      rw [hstep] at h
      rw [show (j : ℚ) * da cfg + da cfg = ((j + 1 : ℕ) : ℚ) * da cfg by push_cast; ring] at h
      have key := ih (j + 1) (k + 3) _ l h
      rw [List.length_append, List.length_singleton] at key
      omega
    · rw [sampleLoop_exit _ _ _ _ _ _ _ ha] at h
      have hj : cfg.numSamples ≤ j := by
        by_contra hj
        apply ha
        rw [hmp]
        have hlt : (j : ℚ) < (cfg.numSamples : ℚ) := by exact_mod_cast Nat.lt_of_not_le hj
        exact mul_lt_mul_of_pos_right hlt hda
      rw [← Option.some_inj.mp h]
      omega

/-- C3 amended: with `numZones = 0` and a valid configuration
(`maxPhase > 0`, `numSamples ≥ 1`), the output length equals `numSamples`
when every per-step jitter is zero — i.e. for the central stream whose draws
are all `1/2`, so each step is exactly `da`.  For general streams the length
can differ (see the counterexample): the claim's "regardless of the random
per-step jitter" does not hold. -/
theorem C3_length_central_stream (cfg : Config) (rand : ℕ → ℚ) (fuel : ℕ)
    (ter : List (ℝ × ℝ)) (hz : cfg.numZones = 0) (hr : ∀ m, rand m = 1 / 2)
    (hp : 0 < cfg.maxPhase) (hN : 1 ≤ cfg.numSamples)
    (h : generateTerrain cfg rand fuel = some ter) :
    ter.length = cfg.numSamples := by
  obtain ⟨l, hl, rfl⟩ := generateTerrain_eq_some cfg rand fuel ter h
  rw [sampleRun] at hl
  have hl' : sampleLoop cfg rand fuel (((0 : ℕ) : ℚ) * da cfg) 0 (2 * cfg.numTerms) []
      = some l := by
    rw [show (((0 : ℕ) : ℚ) * da cfg) = 0 by norm_num]
    exact hl
  have key := central_len cfg rand hz hr hp hN fuel 0 (2 * cfg.numTerms) [] l hl'
  rw [List.length_map]
  simpa using key

/-- C3 witness: the amended theorem applied to the one-sample central-stream
run of `cfgW`. -/
theorem C3_length_central_stream_witness :
    ([realize cfgW randHalf (baseSamp cfgW randHalf 0 2)]).length = cfgW.numSamples :=
  C3_length_central_stream cfgW randHalf 2 _ rfl (fun _ => rfl) (by norm_num [cfgW])
    (by norm_num [cfgW]) genW_eq

lemma step_lb (cfg : Config) (rand : ℕ → ℚ) (hda : 0 < da cfg) (m : ℕ)
    (hr : rand m ∈ Set.Ico (0 : ℚ) 1) :
    da cfg * (3 / 5) ≤ stepInc cfg rand m := by
  obtain ⟨h0, h1⟩ := hr
  have h2 : (-1 : ℚ) ≤ rand m * 2 - 1 := by linarith
  have h3 : (0 : ℚ) ≤ da cfg * (0.4 : ℚ) := by positivity
  have h4 := mul_le_mul_of_nonneg_right h2 h3
  rw [stepInc, dda]
  norm_num at h4 ⊢
  linarith

lemma measN_pos (cfg : Config) (hda : 0 < da cfg) (a : ℚ) (ha : a < cfg.maxPhase) :
    1 ≤ measN cfg a := by
  rw [measN]
  have hσ : 0 < da cfg * (3 / 5 : ℚ) := by positivity
  have hq : (0 : ℚ) < (cfg.maxPhase - a) / (da cfg * (3 / 5)) := div_pos (by linarith) hσ
  have h1 : (1 : ℤ) ≤ ⌈(cfg.maxPhase - a) / (da cfg * (3 / 5))⌉ := Int.ceil_pos.mpr hq
  omega

lemma measN_decrease (cfg : Config) (hda : 0 < da cfg) (a step : ℚ)
    (ha : a < cfg.maxPhase) (hs : da cfg * (3 / 5) ≤ step) :
    measN cfg (a + step) < measN cfg a := by
  have hσ : 0 < da cfg * (3 / 5 : ℚ) := by positivity
  have h1 : (cfg.maxPhase - (a + step)) / (da cfg * (3 / 5))
      ≤ (cfg.maxPhase - a - da cfg * (3 / 5)) / (da cfg * (3 / 5)) :=
    (div_le_div_iff_of_pos_right hσ).mpr (by linarith)
  have h2 : (cfg.maxPhase - a - da cfg * (3 / 5)) / (da cfg * (3 / 5))
      = (cfg.maxPhase - a) / (da cfg * (3 / 5)) - 1 := by
    rw [sub_div, div_self hσ.ne']
  have h3 : ⌈(cfg.maxPhase - (a + step)) / (da cfg * (3 / 5))⌉
      ≤ ⌈(cfg.maxPhase - a) / (da cfg * (3 / 5))⌉ - 1 := by
    calc ⌈(cfg.maxPhase - (a + step)) / (da cfg * (3 / 5))⌉
        ≤ ⌈(cfg.maxPhase - a) / (da cfg * (3 / 5)) - 1⌉ := Int.ceil_le_ceil (h2 ▸ h1)
      _ = ⌈(cfg.maxPhase - a) / (da cfg * (3 / 5))⌉ - 1 := Int.ceil_sub_one _
  have h4 : (1 : ℤ) ≤ ⌈(cfg.maxPhase - a) / (da cfg * (3 / 5))⌉ :=
    Int.ceil_pos.mpr (div_pos (by linarith) hσ)
  rw [measN, measN]
  omega

lemma loop_term_zpdone (cfg : Config) (rand : ℕ → ℚ)
    (hr : ∀ m, rand m ∈ Set.Ico (0 : ℚ) 1) (hda : 0 < da cfg)
    (zp : ℕ) (hzp : cfg.numZones < zp) :
    ∀ n a, measN cfg a ≤ n → ∀ k acc,
      ∃ fuel l, sampleLoop cfg rand fuel a zp k acc = some l := by
  intro n
  induction n with
  | zero =>
    intro a hn k acc
    have ha : ¬ a < cfg.maxPhase := fun ha => by
      have := measN_pos cfg hda a ha
      omega
    exact ⟨0, acc, sampleLoop_exit _ _ _ _ _ _ _ ha⟩
  | succ n ih =>
    intro a hn k acc
    by_cases ha : a < cfg.maxPhase
    · have hstep := step_lb cfg rand hda (k + 2) (hr (k + 2))
      have hdec := measN_decrease cfg hda a _ ha hstep
      obtain ⟨fuel, l, hf⟩ := ih (a + stepInc cfg rand (k + 2)) (by omega) (k + 3)
        (acc ++ [baseSamp cfg rand a k])
      exact ⟨fuel + 1, l, by rw [sampleLoop_step_zpdone _ _ _ _ _ _ _ ha hzp]; exact hf⟩
    · exact ⟨0, acc, sampleLoop_exit _ _ _ _ _ _ _ ha⟩

lemma loop_term (cfg : Config) (rand : ℕ → ℚ)
    (hr : ∀ m, rand m ∈ Set.Ico (0 : ℚ) 1) (hda : 0 < da cfg) :
    ∀ m zp, cfg.numZones + 1 - zp ≤ m →
      ∀ n a, measN cfg a ≤ n → ∀ k acc,
        ∃ fuel l, sampleLoop cfg rand fuel a zp k acc = some l := by
  intro m
  induction m with
  | zero =>
    intro zp hm
    exact loop_term_zpdone cfg rand hr hda zp (by omega)
  | succ m ihm =>
    intro zp hm n
    induction n with
    | zero =>
      intro a hn k acc
      have ha : ¬ a < cfg.maxPhase := fun ha => by
        have := measN_pos cfg hda a ha
        omega
      exact ⟨0, acc, sampleLoop_exit _ _ _ _ _ _ _ ha⟩
    | succ n ihn =>
      intro a hn k acc
      by_cases ha : a < cfg.maxPhase
      · by_cases hzp : zp > cfg.numZones
        · have hstep := step_lb cfg rand hda (k + 2) (hr (k + 2))
          have hdec := measN_decrease cfg hda a _ ha hstep
          obtain ⟨fuel, l, hf⟩ := ihn (a + stepInc cfg rand (k + 2)) (by omega) (k + 3)
            (acc ++ [baseSamp cfg rand a k])
          exact ⟨fuel + 1, l, by rw [sampleLoop_step_zpdone _ _ _ _ _ _ _ ha hzp]; exact hf⟩
        · by_cases hc : a / zoneSpacing cfg - (zp : ℚ) > 0
          · by_cases hd : ⌊rand (k + 2) * 100⌋ % 8 = 1
            · obtain ⟨fuel, l, hf⟩ := ihm (zp + 1) (by omega)
                (measN cfg (((baseSamp cfg rand a k).x
                  + zoneWidth cfg (⌊rand (k + 3) * 100⌋ % 3)) / cfg.scaleX
                  + stepInc cfg rand (k + 4)))
                (((baseSamp cfg rand a k).x
                  + zoneWidth cfg (⌊rand (k + 3) * 100⌋ % 3)) / cfg.scaleX
                  + stepInc cfg rand (k + 4))
                le_rfl (k + 5)
                (acc ++ [baseSamp cfg rand a k,
                  ⟨(baseSamp cfg rand a k).x + zoneWidth cfg (⌊rand (k + 3) * 100⌋ % 3), a,
                    (baseSamp cfg rand a k).dy, true⟩])
              exact ⟨fuel + 1, l,
                by rw [sampleLoop_step_zone _ _ _ _ _ _ _ ha hzp hc hd]; exact hf⟩
            · have hstep := step_lb cfg rand hda (k + 3) (hr (k + 3))
              have hdec := measN_decrease cfg hda a _ ha hstep
              obtain ⟨fuel, l, hf⟩ := ihn (a + stepInc cfg rand (k + 3)) (by omega) (k + 4)
                (acc ++ [baseSamp cfg rand a k])
              exact ⟨fuel + 1, l,
                by rw [sampleLoop_step_deferred _ _ _ _ _ _ _ ha hzp hc hd]; exact hf⟩
          · have hstep := step_lb cfg rand hda (k + 2) (hr (k + 2))
            have hdec := measN_decrease cfg hda a _ ha hstep
            obtain ⟨fuel, l, hf⟩ := ihn (a + stepInc cfg rand (k + 2)) (by omega) (k + 3)
              (acc ++ [baseSamp cfg rand a k])
            exact ⟨fuel + 1, l,
              by rw [sampleLoop_step_notReady _ _ _ _ _ _ _ ha hzp hc]; exact hf⟩
      · exact ⟨0, acc, sampleLoop_exit _ _ _ _ _ _ _ ha⟩

/-- C6: for every configuration with `maxPhase > 0` and `numSamples ≥ 1` and
every random stream with draws in `[0, 1)`, `generateTerrain` terminates:
some finite fuel makes the sampling loop return.  Each ordinary iteration
advances the cursor by at least `da - 0.4·da > 0`, and the zone branch —
which may move the cursor backwards through `a = x / scaleX` — can run at
most `numZones + 1` times because of the `zonesPlaced > numZones` guard, so
a lexicographic measure on (remaining zone placements, remaining minimal
steps below `maxPhase`) decreases at every iteration. -/
theorem C6_generateTerrain_terminates (cfg : Config) (rand : ℕ → ℚ)
    (hp : 0 < cfg.maxPhase) (hN : 1 ≤ cfg.numSamples)
    (hr : ∀ m, rand m ∈ Set.Ico (0 : ℚ) 1) :
    ∃ fuel ter, generateTerrain cfg rand fuel = some ter := by
  have hda : 0 < da cfg := div_pos hp (by exact_mod_cast hN)
  obtain ⟨fuel, l, hf⟩ := loop_term cfg rand hr hda (cfg.numZones + 1) 0 (by omega)
    (measN cfg 0) 0 le_rfl (2 * cfg.numTerms) []
  exact ⟨fuel, l.map (realize cfg rand), by rw [generateTerrain, sampleRun, hf]; rfl⟩

/-- C6 witness: the theorem applied to `cfgW` with the central stream. -/
theorem C6_generateTerrain_terminates_witness :
    ∃ fuel ter, generateTerrain cfgW randHalf fuel = some ter :=
  C6_generateTerrain_terminates cfgW randHalf (by norm_num [cfgW]) (by norm_num [cfgW])
    (fun m => Set.mem_Ico.mpr ⟨by norm_num [randHalf], by norm_num [randHalf]⟩)

lemma placeDraw_rat (q : ℚ) : zonePlaceDraw (q : ℝ) ↔ ⌊q * 100⌋ % 8 = 1 := by
  rw [zonePlaceDraw, show ((q : ℝ) * 100) = ((q * 100 : ℚ) : ℝ) by push_cast; ring,
    Rat.floor_cast]

lemma floor_set_eq (P : ℤ → Prop) [DecidablePred P] :
    {r : ℝ | r ∈ Set.Ico (0 : ℝ) 1 ∧ P ⌊r * 100⌋}
      = ⋃ k ∈ (Finset.range 100).filter (fun k : ℕ => P (k : ℤ)),
          Set.Ico ((k : ℝ) / 100) (((k : ℝ) + 1) / 100) := by
  ext r
  simp only [Set.mem_setOf_eq, Set.mem_iUnion, Finset.mem_filter, Finset.mem_range,
    Set.mem_Ico, exists_prop]
  constructor
  · rintro ⟨⟨h0, h1⟩, hP⟩
    have hm0 : (0 : ℤ) ≤ ⌊r * 100⌋ := Int.floor_nonneg.mpr (by nlinarith)
    have hm99 : ⌊r * 100⌋ < 100 := by
      apply Int.floor_lt.mpr
      push_cast
      nlinarith
    have hcast : ((⌊r * 100⌋.toNat : ℕ) : ℝ) = ((⌊r * 100⌋ : ℤ) : ℝ) := by
      exact_mod_cast congrArg (fun z : ℤ => (z : ℝ)) (Int.toNat_of_nonneg hm0)
    refine ⟨⌊r * 100⌋.toNat, ⟨by omega, by rw [Int.toNat_of_nonneg hm0]; exact hP⟩, ?_, ?_⟩
    · rw [div_le_iff₀ (by norm_num : (0 : ℝ) < 100), hcast]
      exact Int.floor_le (r * 100)
    · rw [lt_div_iff₀ (by norm_num : (0 : ℝ) < 100), hcast]
      exact Int.lt_floor_add_one (r * 100)
  · rintro ⟨k, ⟨hk, hPk⟩, hlo, hhi⟩
    have hk0 : (0 : ℝ) ≤ (k : ℝ) / 100 := by positivity
    have hk99 : ((k : ℝ) + 1) / 100 ≤ 1 := by
      rw [div_le_one (by norm_num : (0 : ℝ) < 100)]
      have hk' : (k : ℝ) ≤ 99 := by exact_mod_cast Nat.le_of_lt_succ hk
      linarith
    have hfl : ⌊r * 100⌋ = (k : ℤ) := by
      rw [Int.floor_eq_iff]
      rw [div_le_iff₀ (by norm_num : (0 : ℝ) < 100)] at hlo
      rw [lt_div_iff₀ (by norm_num : (0 : ℝ) < 100)] at hhi
      constructor
      · exact_mod_cast hlo
      · push_cast
        linarith
    exact ⟨⟨le_trans hk0 hlo, lt_of_lt_of_le hhi hk99⟩, by rw [hfl]; exact hPk⟩

lemma volume_floor_set (P : ℤ → Prop) [DecidablePred P] :
    MeasureTheory.volume {r : ℝ | r ∈ Set.Ico (0 : ℝ) 1 ∧ P ⌊r * 100⌋}
      = ENNReal.ofReal
          ((((Finset.range 100).filter (fun k : ℕ => P (k : ℤ))).card : ℝ) / 100) := by
  rw [floor_set_eq P]
  rw [MeasureTheory.measure_biUnion_finset ?_ (fun k _ => measurableSet_Ico)]
  · have hconst : ∀ k ∈ (Finset.range 100).filter (fun k : ℕ => P (k : ℤ)),
        MeasureTheory.volume (Set.Ico ((k : ℝ) / 100) (((k : ℝ) + 1) / 100))
          = ENNReal.ofReal (1 / 100) := by
      intro k _
      rw [Real.volume_Ico]
      congr 1
      ring
    rw [Finset.sum_congr rfl hconst, Finset.sum_const, nsmul_eq_mul,
      ← ENNReal.ofReal_natCast, ← ENNReal.ofReal_mul (by positivity)]
    congr 1
    ring
  · intro i hi j hj hij
    have key : ∀ u v : ℕ, u < v →
        Disjoint (Set.Ico ((u : ℝ) / 100) (((u : ℝ) + 1) / 100))
          (Set.Ico ((v : ℝ) / 100) (((v : ℝ) + 1) / 100)) := by
      intro u v huv
      rw [Set.Ico_disjoint_Ico]
      have h1 : ((u : ℝ) + 1) / 100 ≤ (v : ℝ) / 100 := by
        have hc : (u : ℝ) + 1 ≤ (v : ℝ) := by exact_mod_cast Nat.succ_le_of_lt huv
        linarith
      calc min (((u : ℝ) + 1) / 100) (((v : ℝ) + 1) / 100)
          ≤ ((u : ℝ) + 1) / 100 := min_le_left _ _
        _ ≤ (v : ℝ) / 100 := h1
        _ ≤ max ((u : ℝ) / 100) ((v : ℝ) / 100) := le_max_right _ _
    rcases lt_or_gt_of_ne hij with h | h
    · exact key i j h
    · exact (key j i h).symm

/-- C4 counterexample: the skip probability of a zone-placement opportunity
is not `7/8`.  The placement test is `floor(r·100) % 8 === 1` on a uniform
draw `r`, and exactly 13 of the 100 equally likely floor values in
`[0, 100)` are `≡ 1 (mod 8)`, so the skip probability — the Lebesgue volume
of the skipping draws in `[0, 1)` — is `87/100 ≠ 7/8`. -/
theorem C4_skip_probability_counterexample :
    (MeasureTheory.volume {r : ℝ | r ∈ Set.Ico (0 : ℝ) 1 ∧ ¬ zonePlaceDraw r}
      = ENNReal.ofReal (7 / 8)) ↔ False := by
  have hcard : ((Finset.range 100).filter (fun k : ℕ => ¬ (k : ℤ) % 8 = 1)).card = 87 := by
    decide
  have hvol : MeasureTheory.volume {r : ℝ | r ∈ Set.Ico (0 : ℝ) 1 ∧ ¬ zonePlaceDraw r}
      = ENNReal.ofReal (87 / 100) := by
    have hv := volume_floor_set (fun m => ¬ m % 8 = 1)
    rw [hcard] at hv
    push_cast at hv
    simpa [zonePlaceDraw] using hv
  rw [hvol]
  simp only [iff_false]
  intro h
  rw [ENNReal.ofReal_eq_ofReal_iff (by norm_num) (by norm_num)] at h
  norm_num at h

/-- C4 amended: the zone-placement opportunity is skipped with probability
`87/100` (not `7/8`), and the variant draw `floor(r·100) % 3` is not
uniform: variant 0 has probability `34/100` while variants 1 and 2 have
`33/100` each (the 100 equally likely floor values do not split evenly by
3). -/
theorem C4_skip_and_variant_probabilities :
    MeasureTheory.volume {r : ℝ | r ∈ Set.Ico (0 : ℝ) 1 ∧ ¬ zonePlaceDraw r}
        = ENNReal.ofReal (87 / 100)
      ∧ MeasureTheory.volume {r : ℝ | r ∈ Set.Ico (0 : ℝ) 1 ∧ zoneVariantDraw r = 0}
        = ENNReal.ofReal (34 / 100)
      ∧ MeasureTheory.volume {r : ℝ | r ∈ Set.Ico (0 : ℝ) 1 ∧ zoneVariantDraw r = 1}
        = ENNReal.ofReal (33 / 100)
      ∧ MeasureTheory.volume {r : ℝ | r ∈ Set.Ico (0 : ℝ) 1 ∧ zoneVariantDraw r = 2}
        = ENNReal.ofReal (33 / 100) := by
  refine ⟨?_, ?_, ?_, ?_⟩
  · have hcard : ((Finset.range 100).filter (fun k : ℕ => ¬ (k : ℤ) % 8 = 1)).card = 87 := by
      decide
    have hv := volume_floor_set (fun m => ¬ m % 8 = 1)
    rw [hcard] at hv
    push_cast at hv
    simpa [zonePlaceDraw] using hv
  · have hcard : ((Finset.range 100).filter (fun k : ℕ => (k : ℤ) % 3 = 0)).card = 34 := by
      decide
    have hv := volume_floor_set (fun m => m % 3 = 0)
    rw [hcard] at hv
    push_cast at hv
    simpa [zoneVariantDraw] using hv
  · have hcard : ((Finset.range 100).filter (fun k : ℕ => (k : ℤ) % 3 = 1)).card = 33 := by
      decide
    have hv := volume_floor_set (fun m => m % 3 = 1)
    rw [hcard] at hv
    push_cast at hv
    simpa [zoneVariantDraw] using hv
  · have hcard : ((Finset.range 100).filter (fun k : ℕ => (k : ℤ) % 3 = 2)).card = 33 := by
      decide
    have hv := volume_floor_set (fun m => m % 3 = 2)
    rw [hcard] at hv
    push_cast at hv
    simpa [zoneVariantDraw] using hv

/-- C10 witness: the theorem applied to the one-sample run of `cfgW` with
the central stream. -/
theorem C10_first_sample_at_zero_witness :
    [realize cfgW randHalf (baseSamp cfgW randHalf 0 2)] ≠ ([] : List (ℝ × ℝ))
      ∧ ([realize cfgW randHalf (baseSamp cfgW randHalf 0 2)]).head? = some
        ((((randHalf (2 * cfgW.numTerms + 1) * 2 - 1) * cfgW.maxDeviationX : ℚ) : ℝ),
          ((cfgW.offsetY : ℝ) - waveOf cfgW randHalf 0 * (cfgW.scaleY : ℝ))
            + (((randHalf (2 * cfgW.numTerms) * 2 - 1) * cfgW.maxDeviationY : ℚ) : ℝ)) :=
  C10_first_sample_at_zero cfgW randHalf 2 _ (by norm_num [cfgW]) genW_eq

end LunarTerrain
